import Mathlib

/-!
Verification of the sanitise-fasta encode/decode pipeline.

The Go sources are shallowly embedded over `Str := List Char`:
strings become character lists, the SQLite/Badger mapping store becomes an
association list, `fmt.Sprintf` with verb `%d` becomes a decimal-digit
rendering, `crypto/sha1` plus `hex.EncodeToString` become a concrete SHA-1
over byte lists, and the identifier regular expression
`\d+_PW_[a-f0-9]+` becomes an explicit maximal-munch scanner.
-/

set_option autoImplicit false

namespace SanitiseFasta

/-- Strings are modelled as lists of characters. -/
abbrev Str := List Char

/-- Coerce a Lean string literal into the character-list model. -/
def str (s : String) : Str := s.data

/-- Decimal digit test for a character, matching the regex class `\d`. -/
def isDigitC (c : Char) : Bool := 48 ≤ c.toNat && c.toNat ≤ 57

/-- Character class `[a-f0-9]` of the identifier regular expression. -/
def isHexLowerC (c : Char) : Bool :=
  (48 ≤ c.toNat && c.toNat ≤ 57) || (97 ≤ c.toNat && c.toNat ≤ 102)

/-- The decimal digit characters, used to embed the `%d` verb of
`fmt.Sprintf`. -/
def digitChar (n : Nat) : Char :=
  match n with
  | 0 => '0' | 1 => '1' | 2 => '2' | 3 => '3' | 4 => '4'
  | 5 => '5' | 6 => '6' | 7 => '7' | 8 => '8' | _ => '9'

/-- Numeric value of a decimal digit character; inverse of `digitChar`. -/
def digitVal (c : Char) : Nat := c.toNat - 48

/-- Digit accumulation for the decimal rendering, most significant digit
first.  The fuel only bounds the digit count (one division by 10 per
step, so `n` fuel is always enough); structural recursion keeps the
definition kernel-computable. -/
def natReprAux : Nat → Nat → List Char
  | 0, _ => []
  | fuel + 1, n =>
    if n = 0 then [] else natReprAux fuel (n / 10) ++ [digitChar (n % 10)]

/-- Decimal rendering of a natural number, most significant digit first:
the embedding of Go `fmt.Sprintf` with verb `%d` on a nonnegative int. -/
def natRepr (n : Nat) : Str :=
  if n = 0 then ['0'] else natReprAux n n

theorem digitVal_digitChar {n : Nat} (h : n < 10) : digitVal (digitChar n) = n := by
  interval_cases n <;> rfl

theorem isDigitC_digitChar {n : Nat} (h : n < 10) : isDigitC (digitChar n) = true := by
  interval_cases n <;> rfl

theorem natRepr_ne_nil (n : Nat) : natRepr n ≠ [] := by
  unfold natRepr
  split
  · simp
  · next h =>
    match n, h with
    | n + 1, _ =>
      simp [natReprAux]

theorem natReprAux_all_digits :
    ∀ (fuel n : Nat), ∀ c ∈ natReprAux fuel n, isDigitC c = true := by
  intro fuel
  induction fuel with
  | zero => intro n c hc; simp [natReprAux] at hc
  | succ fuel ih =>
    intro n c hc
    unfold natReprAux at hc
    split at hc
    · simp at hc
    · rw [List.mem_append] at hc
      rcases hc with hc | hc
      · exact ih _ c hc
      · rw [List.mem_singleton] at hc
        subst hc
        exact isDigitC_digitChar (Nat.mod_lt _ (by norm_num))

theorem natRepr_all_digits (n : Nat) : ∀ c ∈ natRepr n, isDigitC c = true := by
  intro c hc
  unfold natRepr at hc
  split at hc
  · simp at hc; subst hc; rfl
  · exact natReprAux_all_digits n n c hc

/-- Parse a decimal digit string back to a number; inverse of `natRepr`. -/
def natVal (l : Str) : Nat := l.foldl (fun a c => 10 * a + digitVal c) 0

theorem natVal_append_singleton (l : Str) (c : Char) :
    natVal (l ++ [c]) = 10 * natVal l + digitVal c := by
  unfold natVal
  rw [List.foldl_append]
  rfl

theorem natVal_natReprAux :
    ∀ (fuel n : Nat), n ≤ fuel → natVal (natReprAux fuel n) = n := by
  intro fuel
  induction fuel with
  | zero =>
    intro n hn
    have : n = 0 := by omega
    subst this
    rfl
  | succ fuel ih =>
    intro n hn
    unfold natReprAux
    split
    · next h => subst h; rfl
    · next h =>
      rw [natVal_append_singleton, ih (n / 10) (by omega),
        digitVal_digitChar (Nat.mod_lt _ (by norm_num))]
      omega

theorem natVal_natRepr (n : Nat) : natVal (natRepr n) = n := by
  unfold natRepr
  split
  · next h => subst h; rfl
  · exact natVal_natReprAux n n (Nat.le_refl n)

theorem natRepr_injective : Function.Injective natRepr := by
  intro m n h
  have := natVal_natRepr m
  rw [h, natVal_natRepr] at this
  omega

/-! ## SHA-1 and hex encoding

Embedding of `crypto/sha1` (`sha1.Sum`) and `encoding/hex`
(`hex.EncodeToString`) as used by `processSequence`.  All 32-bit machine
arithmetic is `Nat` with explicit reduction modulo `2^32`. -/

/-- The modulus of 32-bit machine arithmetic, 2^32. -/
def w32 : Nat := 4294967296

/-- 32-bit rotate left by `k` of a value below `2^32`. -/
def rotl32 (k x : Nat) : Nat := ((x <<< k) ||| (x >>> (32 - k))) % w32

/-- UTF-8 bytes of one character: Go's `[]byte(string)` conversion is the
UTF-8 encoding of the string. -/
def utf8Bytes (c : Char) : List Nat :=
  let n := c.toNat
  if n < 128 then [n]
  else if n < 2048 then [192 ||| (n >>> 6), 128 ||| (n &&& 63)]
  else if n < 65536 then
    [224 ||| (n >>> 12), 128 ||| ((n >>> 6) &&& 63), 128 ||| (n &&& 63)]
  else
    [240 ||| (n >>> 18), 128 ||| ((n >>> 12) &&& 63),
     128 ||| ((n >>> 6) &&& 63), 128 ||| (n &&& 63)]

/-- Byte sequence of a string, Go `[]byte(s)`. -/
def strBytes (s : Str) : List Nat := (s.map utf8Bytes).join

/-- Big-endian 8-byte rendering of a (length) value, for SHA-1 padding. -/
def beBytes8 (n : Nat) : List Nat :=
  [(n >>> 56) % 256, (n >>> 48) % 256, (n >>> 40) % 256, (n >>> 32) % 256,
   (n >>> 24) % 256, (n >>> 16) % 256, (n >>> 8) % 256, n % 256]

/-- SHA-1 padding: append `0x80`, zeros to 56 mod 64, then the bit length. -/
def sha1Pad (m : List Nat) : List Nat :=
  let L := m.length
  let z := (64 - ((L + 9) % 64)) % 64
  m ++ [128] ++ List.replicate z 0 ++ beBytes8 (8 * L)

/-- Block splitting with fuel; each step consumes at least one byte, so
the list length is always enough fuel, and structural recursion keeps the
definition kernel-computable. -/
def chunks64Fuel : Nat → List Nat → List (List Nat)
  | 0, _ => []
  | _ + 1, [] => []
  | fuel + 1, x :: xs => (x :: xs).take 64 :: chunks64Fuel fuel ((x :: xs).drop 64)

/-- Split a byte list into 64-byte blocks. -/
def chunks64 (l : List Nat) : List (List Nat) := chunks64Fuel l.length l

/-- The sixteen 32-bit big-endian words of one 64-byte block. -/
def wordsOfBlock (b : List Nat) : List Nat :=
  (List.range 16).map (fun i =>
    (((b.getD (4 * i) 0) <<< 24) ||| ((b.getD (4 * i + 1) 0) <<< 16)) |||
    (((b.getD (4 * i + 2) 0) <<< 8) ||| b.getD (4 * i + 3) 0))

/-- Extend the 16 message words to the 80-entry SHA-1 message schedule. -/
def extendWords (ws : List Nat) : List Nat :=
  (List.range 64).foldl (fun acc _ =>
    let n := acc.length
    acc ++ [rotl32 1 (((acc.getD (n - 3) 0) ^^^ (acc.getD (n - 8) 0)) ^^^
                     ((acc.getD (n - 14) 0) ^^^ (acc.getD (n - 16) 0)))]) ws

/-- The SHA-1 round function for round `t`. -/
def sha1F (t b c d : Nat) : Nat :=
  if t < 20 then (b &&& c) ||| ((b ^^^ 4294967295) &&& d)
  else if t < 40 then (b ^^^ c) ^^^ d
  else if t < 60 then ((b &&& c) ||| (b &&& d)) ||| (c &&& d)
  else (b ^^^ c) ^^^ d

/-- The SHA-1 round constant for round `t`. -/
def sha1K (t : Nat) : Nat :=
  if t < 20 then 1518500249
  else if t < 40 then 1859775393
  else if t < 60 then 2400959708
  else 3395469782

/-- The five 32-bit chaining words of SHA-1. -/
structure Sha1H where
  a : Nat
  b : Nat
  c : Nat
  d : Nat
  e : Nat

/-- SHA-1 initial chaining value. -/
def sha1Init : Sha1H := ⟨1732584193, 4023233417, 2562383102, 271733878, 3285377520⟩

/-- SHA-1 compression of one 64-byte block into the chaining state. -/
def processBlock (h : Sha1H) (block : List Nat) : Sha1H :=
  let ws := extendWords (wordsOfBlock block)
  let fin := (List.range 80).foldl (fun (st : Sha1H) t =>
    let temp := (rotl32 5 st.a + sha1F t st.b st.c st.d + st.e +
                 sha1K t + ws.getD t 0) % w32
    ⟨temp, st.a, rotl32 30 st.b, st.c, st.d⟩) h
  ⟨(h.a + fin.a) % w32, (h.b + fin.b) % w32, (h.c + fin.c) % w32,
   (h.d + fin.d) % w32, (h.e + fin.e) % w32⟩

/-- Big-endian bytes of one 32-bit word. -/
def wordBytes (h : Nat) : List Nat :=
  [(h >>> 24) % 256, (h >>> 16) % 256, (h >>> 8) % 256, h % 256]

/-- The 20-byte SHA-1 digest of a byte sequence: Go `sha1.Sum(data)`. -/
def sha1Bytes (msg : List Nat) : List Nat :=
  let h := (chunks64 (sha1Pad msg)).foldl processBlock sha1Init
  wordBytes h.a ++ wordBytes h.b ++ wordBytes h.c ++ wordBytes h.d ++ wordBytes h.e

/-- Lowercase hexadecimal digit characters, as used by `hex.EncodeToString`. -/
def hexDigit (n : Nat) : Char :=
  match n with
  | 0 => '0' | 1 => '1' | 2 => '2' | 3 => '3' | 4 => '4'
  | 5 => '5' | 6 => '6' | 7 => '7' | 8 => '8' | 9 => '9'
  | 10 => 'a' | 11 => 'b' | 12 => 'c' | 13 => 'd' | 14 => 'e' | _ => 'f'

/-- Two lowercase hex characters of one byte. -/
def hexByte (b : Nat) : Str := [hexDigit (b / 16), hexDigit (b % 16)]

/-- Lowercase hex string of a byte sequence: Go `hex.EncodeToString`. -/
def hexEncode (bs : List Nat) : Str := (bs.map hexByte).join

/-- The 40-character hexadecimal SHA-1 digest of a string's bytes:
`hex.EncodeToString(sha1.Sum([]byte(s))[:])`. -/
def sha1hex (s : Str) : Str := hexEncode (sha1Bytes (strBytes s))

theorem sha1Bytes_length (m : List Nat) : (sha1Bytes m).length = 20 := by
  simp [sha1Bytes, wordBytes]

theorem wordBytes_lt (h : Nat) : ∀ b ∈ wordBytes h, b < 256 := by
  intro b hb
  simp only [wordBytes, List.mem_cons, List.not_mem_nil, or_false] at hb
  rcases hb with h1 | h1 | h1 | h1 <;>
    (subst h1; exact Nat.mod_lt _ (by norm_num))

theorem sha1Bytes_lt (m : List Nat) : ∀ b ∈ sha1Bytes m, b < 256 := by
  intro b hb
  simp only [sha1Bytes, List.mem_append] at hb
  rcases hb with (((h1 | h1) | h1) | h1) | h1 <;> exact wordBytes_lt _ b h1

theorem isHexLowerC_hexDigit {n : Nat} (h : n < 16) : isHexLowerC (hexDigit n) = true := by
  interval_cases n <;> rfl

theorem sha1hex_length (s : Str) : (sha1hex s).length = 40 := by
  have h20 := sha1Bytes_length (strBytes s)
  simp only [sha1hex, hexEncode]
  rw [List.length_join]
  rw [List.map_map]
  have : ((sha1Bytes (strBytes s)).map (List.length ∘ hexByte)) =
      (sha1Bytes (strBytes s)).map (fun _ => 2) := by
    apply List.map_congr_left
    intro b _
    simp [hexByte]
  rw [this, List.map_const', h20, List.sum_replicate]
  norm_num

theorem sha1hex_hex (s : Str) : ∀ c ∈ sha1hex s, isHexLowerC c = true := by
  intro c hc
  simp only [sha1hex, hexEncode, List.mem_join, List.mem_map] at hc
  obtain ⟨l, ⟨b, hb, hbl⟩, hcl⟩ := hc
  have hb256 : b < 256 := sha1Bytes_lt _ b hb
  subst hbl
  simp only [hexByte, List.mem_cons, List.not_mem_nil, or_false] at hcl
  rcases hcl with h | h <;> subst h
  · exact isHexLowerC_hexDigit (by omega)
  · exact isHexLowerC_hexDigit (Nat.mod_lt _ (by norm_num))

/-! ## Mapping store and encode mode

Embedded from `src/sanitiser.go` (the `_PW_` variant: `encodeMode`,
`processSequence`) and `src/mapping_store.go` (`StorePair`,
`LookupOriginalID`).  The SQLite table keyed on `new_id` is modelled as an
association list written append-only during encode. -/

/-- The fixed separator of `idFormat = "%d_PW_%s"`. -/
def sepPW : Str := ['_', 'P', 'W', '_']

/-- The mapping store: `new_id → original_header` rows in insertion order. -/
abbrev Store := List (Str × Str)

/-- Embedding of `MappingStore.StorePair`: insert one `(new_id, original_header)` row. -/
def storePair (st : Store) (newID originalHeader : Str) : Store :=
  st ++ [(newID, originalHeader)]

/-- Embedding of `MappingStore.LookupOriginalID`: `SELECT original_id FROM mappings
WHERE new_id = ?`; `none` models the `sql.ErrNoRows` miss. -/
def lookupOriginalID (st : Store) (newID : Str) : Option Str :=
  (st.find? (fun p => p.1 == newID)).map (fun p => p.2)

/-- The generated identifier
`fmt.Sprintf(idFormat, index+1, trimmedHash)` where `trimmedHash` is
`hex.EncodeToString(sha1.Sum([]byte(sequence))[:])[:trimLength]`. -/
def newIDOf (sequence : Str) (index trimLength : Nat) : Str :=
  natRepr (index + 1) ++ sepPW ++ (sha1hex sequence).take trimLength

/-- Embedding of `processSequence`: build the identifier, record the mapping pair, and
emit the rewritten header line `>newID` followed by the sequence line. -/
def processSequence (header sequence : Str) (index trimLength : Nat) :
    List Str × (Str × Str) :=
  let newID := newIDOf sequence index trimLength
  (('>' :: newID) :: [sequence], (newID, header))

/-- Embedding of `strings.HasPrefix(line, ">")`. -/
def hasPrefixGT (s : Str) : Bool := ['>'].isPrefixOf s

/-- The scanner loop of `encodeMode` in `src/sanitiser.go`: state
`(currentHeader, currentSequence, index)`, emitting via `processSequence`
whenever a `>` line closes a record with a nonempty header, plus the
final flush.  Returns the output lines and the store contents. -/
def encodeLoop (t : Nat) (currentHeader currentSequence : Str) (index : Nat) :
    List Str → List Str × Store
  | [] =>
    if currentHeader ≠ [] then
      let p := processSequence currentHeader currentSequence index t
      (p.1, [p.2])
    else ([], [])
  | line :: rest =>
    if hasPrefixGT line then
      if currentHeader ≠ [] then
        let p := processSequence currentHeader currentSequence index t
        let r := encodeLoop t (line.drop 1) [] (index + 1) rest
        (p.1 ++ r.1, p.2 :: r.2)
      else
        encodeLoop t (line.drop 1) [] index rest
    else
      encodeLoop t currentHeader (currentSequence ++ line) index rest

/-- Embedding of `encodeMode input mappingStore trimLength` of `src/sanitiser.go`,
starting from empty header, empty sequence and index 0 over the input
lines; the store starts fresh. -/
def encodeMode (input : List Str) (trimLength : Nat) : List Str × Store :=
  encodeLoop trimLength [] [] 0 input

/-- The raw record segmentation performed by the same scanner loop: every
segment between `>` boundaries, including those with an empty header (the
leading pseudo-record before the first `>` line among them). -/
def parseLoop (currentHeader currentSequence : Str) :
    List Str → List (Str × Str)
  | [] => [(currentHeader, currentSequence)]
  | line :: rest =>
    if hasPrefixGT line then
      (currentHeader, currentSequence) :: parseLoop (line.drop 1) [] rest
    else
      parseLoop currentHeader (currentSequence ++ line) rest

/-- All raw records of the input, empty-header segments included. -/
def rawRecords (input : List Str) : List (Str × Str) :=
  parseLoop [] [] input

/-- Emit a list of records through `processSequence` with consecutive
indices starting at `idx`. -/
def emitIndexed (t : Nat) : Nat → List (Str × Str) → List Str × Store
  | _, [] => ([], [])
  | idx, r :: rs =>
    let p := processSequence r.1 r.2 idx t
    let rest := emitIndexed t (idx + 1) rs
    (p.1 ++ rest.1, p.2 :: rest.2)

theorem encodeLoop_eq_emitIndexed (t : Nat) (input : List Str) :
    ∀ (hd sq : Str) (idx : Nat),
    encodeLoop t hd sq idx input =
      emitIndexed t idx ((parseLoop hd sq input).filter (fun r => !r.1.isEmpty)) := by
  induction input with
  | nil =>
    intro hd sq idx
    by_cases h : hd = []
    · subst h
      simp [encodeLoop, parseLoop, emitIndexed]
    · have : (!(hd.isEmpty)) = true := by
        simp [List.isEmpty_iff, h]
      simp [encodeLoop, parseLoop, emitIndexed, h, this]
  | cons line rest ih =>
    intro hd sq idx
    by_cases hgt : hasPrefixGT line = true
    · by_cases h : hd = []
      · subst h
        simp [encodeLoop, parseLoop, hgt, ih]
      · have hne : (!(hd.isEmpty)) = true := by
          simp [List.isEmpty_iff, h]
        simp [encodeLoop, parseLoop, hgt, h, hne, ih, emitIndexed]
    · simp [encodeLoop, parseLoop, hgt, ih]

/-- C10 structural form: encode emits exactly the raw records with a
nonempty header, indexed consecutively from 0. -/
theorem encodeMode_eq_emitIndexed (input : List Str) (t : Nat) :
    encodeMode input t =
      emitIndexed t 0 ((rawRecords input).filter (fun r => !r.1.isEmpty)) :=
  encodeLoop_eq_emitIndexed t input [] [] 0

theorem takeWhile_append_of_all {p : Char → Bool} :
    ∀ l1 l2 : Str, (∀ c ∈ l1, p c = true) →
    (l1 ++ l2).takeWhile p = l1 ++ l2.takeWhile p := by
  intro l1 l2 h
  induction l1 with
  | nil => simp
  | cons c cs ih =>
    have hc : p c = true := h c (List.mem_cons_self c cs)
    have hcs : ∀ x ∈ cs, p x = true := fun x hx => h x (List.mem_cons_of_mem c hx)
    simp [List.takeWhile_cons, hc, ih hcs]

theorem takeWhile_newID (sequence : Str) (index t : Nat) :
    (newIDOf sequence index t).takeWhile isDigitC = natRepr (index + 1) := by
  unfold newIDOf
  rw [List.append_assoc,
    takeWhile_append_of_all _ _ (natRepr_all_digits (index + 1))]
  have : (sepPW ++ (sha1hex sequence).take t).takeWhile isDigitC = [] := by
    simp [sepPW, List.takeWhile_cons, isDigitC]
  rw [this, List.append_nil]

/-- Identifiers of distinct record indices are distinct strings, whatever
the trim lengths or digests: the decimal index prefix determines the
index. -/
theorem newIDOf_index_inj {s1 s2 : Str} {i1 i2 t1 t2 : Nat}
    (h : newIDOf s1 i1 t1 = newIDOf s2 i2 t2) : i1 = i2 := by
  have h1 := takeWhile_newID s1 i1 t1
  have h2 := takeWhile_newID s2 i2 t2
  rw [h, h2] at h1
  have := natRepr_injective h1.symm
  omega

theorem emitIndexed_entry_shape (t : Nat) :
    ∀ (rs : List (Str × Str)) (idx : Nat) (x : Str × Str),
    x ∈ (emitIndexed t idx rs).2 → ∃ s i, idx ≤ i ∧ x.1 = newIDOf s i t := by
  intro rs
  induction rs with
  | nil => intro idx x hx; simp [emitIndexed] at hx
  | cons r rs ih =>
    intro idx x hx
    simp only [emitIndexed, processSequence, List.mem_cons] at hx
    rcases hx with hx | hx
    · exact ⟨r.2, idx, Nat.le_refl idx, by rw [hx]⟩
    · obtain ⟨s, i, hi, hs⟩ := ih (idx + 1) x hx
      exact ⟨s, i, by omega, hs⟩

/-- The `new_id` keys written by consecutive emission are pairwise
distinct. -/
theorem emitIndexed_keys_pairwise (t : Nat) :
    ∀ (rs : List (Str × Str)) (idx : Nat),
    ((emitIndexed t idx rs).2.map Prod.fst).Pairwise (· ≠ ·) := by
  intro rs
  induction rs with
  | nil => intro idx; simp [emitIndexed]
  | cons r rs ih =>
    intro idx
    simp only [emitIndexed, processSequence, List.map_cons, List.pairwise_cons]
    constructor
    · intro k hk
      simp only [List.mem_map] at hk
      obtain ⟨x, hx, hxk⟩ := hk
      obtain ⟨s, i, hi, hs⟩ := emitIndexed_entry_shape t rs (idx + 1) x hx
      intro hcontra
      rw [← hxk, hs] at hcontra
      have := newIDOf_index_inj hcontra
      omega
    · exact ih (idx + 1)

/-- Looking up the key of record `k` in the emitted store returns that
record's original header. -/
theorem emitIndexed_lookup (t : Nat) :
    ∀ (rs : List (Str × Str)) (idx k : Nat) (hk : k < rs.length),
    lookupOriginalID (emitIndexed t idx rs).2
        (newIDOf (rs.get ⟨k, hk⟩).2 (idx + k) t) =
      some (rs.get ⟨k, hk⟩).1 := by
  intro rs
  induction rs with
  | nil => intro idx k hk; simp at hk
  | cons r rs ih =>
    intro idx k hk
    match k with
    | 0 =>
      simp only [emitIndexed, processSequence, lookupOriginalID, List.get,
        Nat.add_zero, List.find?_cons]
      have : ((newIDOf r.2 idx t, r.1).1 == newIDOf r.2 idx t) = true := by
        simp
      rw [this]
      rfl
    | k + 1 =>
      have hk' : k < rs.length := by simpa using hk
      have hkey : newIDOf ((r :: rs).get ⟨k + 1, hk⟩).2 (idx + (k + 1)) t =
          newIDOf (rs.get ⟨k, hk'⟩).2 ((idx + 1) + k) t := by
        have : idx + (k + 1) = (idx + 1) + k := by omega
        simp [List.get, this]
      rw [hkey]
      have hne : ((newIDOf r.2 idx t, r.1).1 ==
          newIDOf (rs.get ⟨k, hk'⟩).2 ((idx + 1) + k) t) = false := by
        simp only [beq_eq_false_iff_ne, ne_eq]
        intro hcontra
        have := newIDOf_index_inj hcontra
        omega
      simp only [emitIndexed, processSequence, lookupOriginalID, List.find?_cons]
      rw [hne]
      have := ih (idx + 1) k hk'
      simp only [lookupOriginalID] at this
      rw [this]
      simp [List.get]

/-! ## Decode mode

Embedded from `decodeMode` of `src/sanitiser.go` (`_PW_` variant): the
compiled regular expression `\d+_PW_[a-f0-9]+` becomes an explicit
maximal-munch scanner, and the per-line replacement map becomes an
association list. -/

/-- One left-to-right pass of `re.FindAllString(line, -1)` for the
pattern `\d+_PW_[a-f0-9]+`.  At a digit the maximal digit run is taken;
all start positions inside one digit run reach the same separator
position, so on failure the scan resumes right after the run, and after a
match it resumes after the match (non-overlapping semantics).  Fuel
decreases by one per step while the suffix strictly shrinks, so
`s.length` fuel is exact. -/
def scanIds : Nat → Str → List Str
  | 0, _ => []
  | _ + 1, [] => []
  | fuel + 1, c :: cs =>
    if isDigitC c then
      let ds := (c :: cs).takeWhile isDigitC
      let r1 := (c :: cs).dropWhile isDigitC
      if sepPW.isPrefixOf r1 then
        let r2 := r1.drop 4
        let hs := r2.takeWhile isHexLowerC
        if hs.isEmpty then scanIds fuel r1
        else (ds ++ sepPW ++ hs) :: scanIds fuel (r2.dropWhile isHexLowerC)
      else scanIds fuel r1
    else scanIds fuel cs

/-- All non-overlapping matches of the identifier pattern in a line. -/
def findMatches (s : Str) : List Str := scanIds s.length s

/-- Embedding of `strings.ReplaceAll(s, t, r)`: leftmost non-overlapping replacement.
Every call site passes a nonempty pattern (a regex match or the quote
character); the empty pattern is modelled as the identity. -/
def replaceAllFuel (r t : Str) : Nat → Str → Str
  | 0, s => s
  | fuel + 1, s =>
    match s with
    | [] => []
    | c :: cs =>
      if t ≠ [] ∧ t.isPrefixOf (c :: cs) then
        r ++ replaceAllFuel r t fuel ((c :: cs).drop t.length)
      else
        c :: replaceAllFuel r t fuel cs

/-- Embedding of `strings.ReplaceAll(s, t, r)`. -/
def replaceAll (s t r : Str) : Str := replaceAllFuel r t s.length s

/-- CSV-safe quoting applied at substitution time: double every internal
double quote, then wrap the whole value in one pair of double quotes. -/
def csvQuote (v : Str) : Str := '"' :: (replaceAll v ['"'] ['"', '"'] ++ ['"'])

/-- Go map assignment `replacements[match] = v` on an association list. -/
def mapAssign (m : List (Str × Str)) (k v : Str) : List (Str × Str) :=
  if m.any (fun p => p.1 == k) then
    m.map (fun p => if p.1 == k then (k, v) else p)
  else
    m ++ [(k, v)]

/-- The match-resolution loop of `decodeMode`: each regex match is looked
up in the store, in order (`queried` records one store query per match
occurrence); a hit is recorded in the replacements map (CSV quoting
applied here, per occurrence, when CSV mode is on), a miss appends one
warning diagnostic for that occurrence. -/
def replLoop (store : Store) (csvMode : Bool) :
    List Str → List (Str × Str) → List Str → List Str →
      List (Str × Str) × List Str × List Str
  | [], repl, queried, warn => (repl, queried, warn)
  | m :: ms, repl, queried, warn =>
    match lookupOriginalID store m with
    | some v =>
      let v' := if csvMode then csvQuote v else v
      replLoop store csvMode ms (mapAssign repl m v') (queried ++ [m]) warn
    | none => replLoop store csvMode ms repl (queried ++ [m]) (warn ++ [m])

/-- Result of decoding one line: the rewritten line, the store keys
queried (one per match occurrence), and the warning diagnostics (one per
missed occurrence). -/
structure DecodedLine where
  line : Str
  queried : List Str
  warned : List Str
deriving DecidableEq, Repr

/-- The per-line body of `decodeMode`: find all matches, resolve them,
then perform the single-pass replacement over the map.  Go iterates the
map in unspecified order; insertion order is used here, and every theorem
below only depends on lines whose map has at most one distinct key, where
all iteration orders agree. -/
def decodeLine (store : Store) (csvMode : Bool) (line : Str) : DecodedLine :=
  let ms := findMatches line
  let rw := replLoop store csvMode ms [] [] []
  let line' := rw.1.foldl (fun l p => replaceAll l p.1 p.2) line
  ⟨line', rw.2.1, rw.2.2⟩

/-- Embedding of `decodeMode`: rewrite every input line, in input order. -/
def decodeMode (store : Store) (csvMode : Bool) (input : List Str) : List Str :=
  input.map (fun l => (decodeLine store csvMode l).line)

/-! ## Lemmas about the scanner and replacement on encoded header lines -/

theorem isPrefixOf_append_self (l1 l2 : Str) : l1.isPrefixOf (l1 ++ l2) = true := by
  induction l1 with
  | nil => simp [List.isPrefixOf]
  | cons c cs ih => simp [List.isPrefixOf, ih]

theorem dropWhile_append_of_all {p : Char → Bool} :
    ∀ l1 l2 : Str, (∀ c ∈ l1, p c = true) →
    (l1 ++ l2).dropWhile p = l2.dropWhile p := by
  intro l1 l2 h
  induction l1 with
  | nil => simp
  | cons c cs ih =>
    have hc : p c = true := h c (List.mem_cons_self c cs)
    have hcs : ∀ x ∈ cs, p x = true := fun x hx => h x (List.mem_cons_of_mem c hx)
    simp [List.dropWhile_cons, hc, ih hcs]

theorem takeWhile_all {p : Char → Bool} (l : Str) (h : ∀ c ∈ l, p c = true) :
    l.takeWhile p = l := by
  have := takeWhile_append_of_all (p := p) l [] h
  simpa using this

theorem dropWhile_all {p : Char → Bool} (l : Str) (h : ∀ c ∈ l, p c = true) :
    l.dropWhile p = [] := by
  have := dropWhile_append_of_all (p := p) l [] h
  simpa using this

theorem scanIds_nil (f : Nat) : scanIds f [] = [] := by
  cases f <;> rfl

theorem replaceAllFuel_nil (r t : Str) (f : Nat) : replaceAllFuel r t f [] = [] := by
  cases f <;> rfl

/-- The scanner finds exactly the identifier in an encoded header line
`>{digits}_PW_{hex}`. -/
theorem findMatches_header (n : Nat) (h : Str) (hne : h ≠ [])
    (hhex : ∀ c ∈ h, isHexLowerC c = true) :
    findMatches ('>' :: (natRepr n ++ sepPW ++ h)) = [natRepr n ++ sepPW ++ h] := by
  obtain ⟨d, ds, hnd⟩ := List.exists_cons_of_ne_nil (natRepr_ne_nil n)
  have hdmem : d ∈ natRepr n := by rw [hnd]; exact List.mem_cons_self d ds
  have hddig : isDigitC d = true := natRepr_all_digits n d hdmem
  have htake : (natRepr n ++ sepPW ++ h).takeWhile isDigitC = natRepr n := by
    rw [List.append_assoc, takeWhile_append_of_all _ _ (natRepr_all_digits n)]
    have : (sepPW ++ h).takeWhile isDigitC = [] := by
      simp [sepPW, List.takeWhile_cons, isDigitC]
    rw [this, List.append_nil]
  have hdropw : (natRepr n ++ sepPW ++ h).dropWhile isDigitC = sepPW ++ h := by
    rw [List.append_assoc, dropWhile_append_of_all _ _ (natRepr_all_digits n)]
    simp [sepPW, List.dropWhile_cons, isDigitC]
  have hdrop4 : (sepPW ++ h).drop 4 = h := List.drop_left sepPW h
  have hcons : natRepr n ++ sepPW ++ h = d :: (ds ++ (sepPW ++ h)) := by
    rw [hnd]; simp
  have hlen : ('>' :: (natRepr n ++ sepPW ++ h)).length =
      (natRepr n ++ sepPW ++ h).length + 1 := List.length_cons _ _
  unfold findMatches
  rw [hlen, scanIds]
  have hgtdig : isDigitC '>' = false := by rfl
  rw [if_neg (by rw [hgtdig]; simp)]
  conv_lhs => rw [hcons, List.length_cons, scanIds]
  rw [if_pos (by rw [← hcons] at *; exact hddig)]
  simp only [← hcons, htake, hdropw, isPrefixOf_append_self, if_pos, hdrop4,
    takeWhile_all h hhex, dropWhile_all h hhex, scanIds_nil]
  have hemp : h.isEmpty = false := by
    cases h with
    | nil => exact absurd rfl hne
    | cons a as => rfl
  rw [hemp]
  simp

theorem isPrefixOf_self (l : Str) : l.isPrefixOf l = true := by
  have := isPrefixOf_append_self l []
  rw [List.append_nil] at this
  exact this

theorem replaceAllFuel_self (x : Char) (xs r : Str) :
    replaceAllFuel r (x :: xs) (x :: xs).length (x :: xs) = r := by
  rw [List.length_cons, replaceAllFuel]
  rw [if_pos ⟨List.cons_ne_nil x xs, isPrefixOf_self (x :: xs)⟩]
  rw [List.drop_length, replaceAllFuel_nil, List.append_nil]

/-- Replacement of the full identifier in a header line `>{id}` by the
looked-up value: the single occurrence is replaced. -/
theorem replaceAll_wrap (x : Char) (xs r : Str) (hx : x ≠ '>') :
    replaceAll ('>' :: (x :: xs)) (x :: xs) r = '>' :: r := by
  unfold replaceAll
  rw [List.length_cons, replaceAllFuel]
  have hnp : ((x :: xs).isPrefixOf ('>' :: x :: xs)) = false := by
    simp only [List.isPrefixOf]
    have : (x == '>') = false := beq_eq_false_iff_ne.mpr hx
    rw [this]
    rfl
  rw [if_neg (by rw [hnp]; simp)]
  rw [replaceAllFuel_self]

/-- Decoding an encoded header line `>{id}` with the store mapping `id`
to `v` (CSV mode off) yields `>{v}`. -/
theorem decodeLine_header (store : Store) (n : Nat) (h v : Str) (hne : h ≠ [])
    (hhex : ∀ c ∈ h, isHexLowerC c = true)
    (hlook : lookupOriginalID store (natRepr n ++ sepPW ++ h) = some v) :
    (decodeLine store false ('>' :: (natRepr n ++ sepPW ++ h))).line = '>' :: v := by
  obtain ⟨d, ds, hnd⟩ := List.exists_cons_of_ne_nil (natRepr_ne_nil n)
  have hddig : isDigitC d = true :=
    natRepr_all_digits n d (by rw [hnd]; exact List.mem_cons_self d ds)
  have hdne : d ≠ '>' := by
    intro hcontra
    rw [hcontra] at hddig
    exact absurd hddig (by decide)
  have hcons : natRepr n ++ sepPW ++ h = d :: (ds ++ (sepPW ++ h)) := by
    rw [hnd]; simp
  unfold decodeLine
  simp only [findMatches_header n h hne hhex, replLoop, hlook, mapAssign,
    List.any_nil, Bool.false_eq_true, if_neg, if_false, List.nil_append,
    List.foldl_cons, List.foldl_nil]
  rw [hcons]
  exact replaceAll_wrap d (ds ++ (sepPW ++ h)) v hdne

/-- In the emitted output, line `2*k` is the rewritten header line of
record `k`. -/
theorem emitIndexed_out_get (t : Nat) :
    ∀ (rs : List (Str × Str)) (idx k : Nat) (hk : k < rs.length),
    (emitIndexed t idx rs).1.get? (2 * k) =
      some ('>' :: newIDOf (rs.get ⟨k, hk⟩).2 (idx + k) t) := by
  intro rs
  induction rs with
  | nil => intro idx k hk; simp at hk
  | cons r rs ih =>
    intro idx k hk
    match k with
    | 0 =>
      simp [emitIndexed, processSequence, List.get]
    | k + 1 =>
      have hk' : k < rs.length := by simpa using hk
      have h2 : 2 * (k + 1) = 2 * k + 1 + 1 := by omega
      simp only [emitIndexed, processSequence, List.cons_append, h2,
        List.get?_cons_succ, List.get]
      rw [List.nil_append]
      have := ih (idx + 1) k hk'
      rw [this]
      have : idx + 1 + k = idx + (k + 1) := by omega
      rw [this]

/-- The emitted records of an encode run: the raw records with a
nonempty header, in input order. -/
def emittedRecords (input : List Str) : List (Str × Str) :=
  (rawRecords input).filter (fun r => !r.1.isEmpty)

/-- C1.  Round trip: decoding the encode output against the store of the
same run (CSV mode off) restores every original header byte-for-byte:
output line `2*k` of the decode is `>` followed by emitted record `k`'s
original header.  The claim's proviso that headers contain no
identifier-shaped substring is carried as a hypothesis. -/
theorem c1_round_trip (input : List Str) (t : Nat) (h1 : 1 ≤ t) (h2 : t ≤ 40)
    (_hprov : ∀ r ∈ emittedRecords input, findMatches r.1 = []) :
    ∀ (k : Nat) (hk : k < (emittedRecords input).length),
    (decodeMode (encodeMode input t).2 false (encodeMode input t).1).get? (2 * k) =
      some ('>' :: ((emittedRecords input).get ⟨k, hk⟩).1) := by
  intro k hk
  have henc : encodeMode input t = emitIndexed t 0 (emittedRecords input) :=
    encodeMode_eq_emitIndexed input t
  rw [henc]
  unfold decodeMode
  rw [List.get?_map, emitIndexed_out_get t (emittedRecords input) 0 k hk]
  simp only [Option.map_some']
  set rec := (emittedRecords input).get ⟨k, hk⟩ with hrec
  have hid : newIDOf rec.2 (0 + k) t =
      natRepr (k + 1) ++ sepPW ++ (sha1hex rec.2).take t := by
    unfold newIDOf
    rw [Nat.zero_add]
  rw [hid]
  have hhlen : ((sha1hex rec.2).take t).length = t := by
    rw [List.length_take, sha1hex_length]
    omega
  have hhne : (sha1hex rec.2).take t ≠ [] := by
    intro hcontra
    rw [hcontra] at hhlen
    simp at hhlen
    omega
  have hhhex : ∀ c ∈ (sha1hex rec.2).take t, isHexLowerC c = true :=
    fun c hc => sha1hex_hex rec.2 c (List.mem_of_mem_take hc)
  have hlook : lookupOriginalID (emitIndexed t 0 (emittedRecords input)).2
      (natRepr (k + 1) ++ sepPW ++ (sha1hex rec.2).take t) = some rec.1 := by
    have := emitIndexed_lookup t (emittedRecords input) 0 k hk
    rw [← hrec] at this
    rw [← this]
    congr 1
    unfold newIDOf
    rw [Nat.zero_add]
  rw [decodeLine_header _ (k + 1) _ rec.1 hhne hhhex hlook]

/-- Witness for C1 on the end-to-end example input with trim length 8:
the first decoded output line restores the header `seq1`. -/
theorem c1_round_trip_witness :
    (∀ r ∈ emittedRecords [str (">seq1"), str ("ACGT")], findMatches r.1 = []) ∧
    (decodeMode (encodeMode [str (">seq1"), str ("ACGT")] 8).2 false
        (encodeMode [str (">seq1"), str ("ACGT")] 8).1).get? (2 * 0) =
      some ('>' ::
        ((emittedRecords [str (">seq1"), str ("ACGT")]).get ⟨0, by decide⟩).1) :=
  ⟨by decide,
   c1_round_trip [str (">seq1"), str ("ACGT")] 8 (by decide) (by decide)
     (by decide) 0 (by decide)⟩

/-- The digest portion of an identifier: what follows the decimal index
prefix and the 4-character separator. -/
def digestAfterSep (id : Str) : Str := (id.dropWhile isDigitC).drop 4

/-- C8.  Trim exactness: for any trim length `t` in `[1,40]`, the digest
portion of the generated identifier equals the first `t` characters of
the hexadecimal SHA-1 digest of the sequence bytes, has exactly `t`
characters, and all of them are lowercase hexadecimal. -/
theorem c8_trim_exactness (sequence : Str) (index t : Nat)
    (h1 : 1 ≤ t) (h2 : t ≤ 40) :
    digestAfterSep (newIDOf sequence index t) = (sha1hex sequence).take t ∧
    (digestAfterSep (newIDOf sequence index t)).length = t ∧
    ∀ c ∈ digestAfterSep (newIDOf sequence index t), isHexLowerC c = true := by
  have heq : digestAfterSep (newIDOf sequence index t) = (sha1hex sequence).take t := by
    unfold digestAfterSep newIDOf
    rw [List.append_assoc, dropWhile_append_of_all _ _ (natRepr_all_digits (index + 1))]
    have : (sepPW ++ (sha1hex sequence).take t).dropWhile isDigitC =
        sepPW ++ (sha1hex sequence).take t := by
      simp [sepPW, List.dropWhile_cons, isDigitC]
    rw [this]
    exact List.drop_left sepPW _
  refine ⟨heq, ?_, ?_⟩
  · rw [heq, List.length_take, sha1hex_length]
    omega
  · rw [heq]
    intro c hc
    exact sha1hex_hex _ c (List.mem_of_mem_take hc)

/-- Witness for C8 at trim length 8 on the sequence `ACGT`. -/
theorem c8_trim_exactness_witness :
    digestAfterSep (newIDOf (str ("ACGT")) 0 8) = (sha1hex (str ("ACGT"))).take 8 ∧
    (digestAfterSep (newIDOf (str ("ACGT")) 0 8)).length = 8 :=
  ⟨(c8_trim_exactness (str ("ACGT")) 0 8 (by decide) (by decide)).1,
   (c8_trim_exactness (str ("ACGT")) 0 8 (by decide) (by decide)).2.1⟩

/-- C9.  Within one encode run the generated identifiers (the `new_id`
keys written to the store, one per emitted record) are pairwise distinct,
because the decimal index prefix is strictly increasing across emitted
records — independently of the digests, which may collide. -/
theorem c9_ids_pairwise_distinct (input : List Str) (t : Nat) :
    ((encodeMode input t).2.map Prod.fst).Pairwise (· ≠ ·) := by
  rw [encodeMode_eq_emitIndexed]
  exact emitIndexed_keys_pairwise t _ 0

/-- C10.  A record whose header line is just `>` is silently dropped:
the encode result coincides with consecutive-index emission over only
the nonempty-header raw records, so an empty-header record produces no
output lines, stores no mapping, and does not advance the index — the
following record receives the next consecutive index as if the
empty-header record never existed. -/
theorem c10_empty_header_dropped (input : List Str) (t : Nat) :
    encodeMode input t =
      emitIndexed t 0 ((rawRecords input).filter (fun r => !r.1.isEmpty)) :=
  encodeMode_eq_emitIndexed input t

/-! ## Decode miss behaviour, duplicate tokens and CSV quoting -/

theorem replLoop_queried (store : Store) (csvMode : Bool) :
    ∀ (ms : List Str) (repl : List (Str × Str)) (queried warn : List Str),
    (replLoop store csvMode ms repl queried warn).2.1 = queried ++ ms := by
  intro ms
  induction ms with
  | nil => intro repl queried warn; simp [replLoop]
  | cons m ms ih =>
    intro repl queried warn
    unfold replLoop
    match hl : lookupOriginalID store m with
    | some v => simp [hl, ih]
    | none => simp [hl, ih]

theorem replLoop_all_none (store : Store) (csvMode : Bool) :
    ∀ (ms : List Str) (repl : List (Str × Str)) (queried warn : List Str),
    (∀ m ∈ ms, lookupOriginalID store m = none) →
    replLoop store csvMode ms repl queried warn = (repl, queried ++ ms, warn ++ ms) := by
  intro ms
  induction ms with
  | nil => intro repl queried warn _; simp [replLoop]
  | cons m ms ih =>
    intro repl queried warn h
    have hm : lookupOriginalID store m = none := h m (List.mem_cons_self m ms)
    have hms : ∀ x ∈ ms, lookupOriginalID store x = none :=
      fun x hx => h x (List.mem_cons_of_mem m hx)
    unfold replLoop
    rw [hm]
    rw [ih _ _ _ hms]
    simp

/-- C5 (amended).  When every identifier-shaped token occurring in a line
has no matching store entry, the line is output byte-for-byte unchanged,
exactly one diagnostic is emitted per token occurrence (in match order),
and line counts are never altered: decode maps lines one-to-one. -/
theorem c5_miss_line_unchanged :
    (∀ (store : Store) (csvMode : Bool) (line : Str),
      (∀ m ∈ findMatches line, lookupOriginalID store m = none) →
      (decodeLine store csvMode line).line = line ∧
      (decodeLine store csvMode line).warned = findMatches line) ∧
    ∀ (store : Store) (csvMode : Bool) (input : List Str),
      (decodeMode store csvMode input).length = input.length := by
  constructor
  · intro store csvMode line h
    have hr := replLoop_all_none store csvMode (findMatches line) [] [] [] h
    simp [decodeLine, hr]
  · intro store csvMode input
    unfold decodeMode
    rw [List.length_map]

/-- Counterexample to C5 as stated: in the line `12_PW_ab 2_PW_ab` with
only `2_PW_ab` stored, the token `12_PW_ab` misses, yet the single-pass
replacement of the resolved token `2_PW_ab` also rewrites its occurrence
inside the missed token, so the missed token is not left unchanged: the
output line is `1Z Z` and no longer contains `12_PW_ab`. -/
theorem c5_counterexample :
    str ("12_PW_ab") ∈ findMatches (str ("12_PW_ab 2_PW_ab")) ∧
    lookupOriginalID [(str ("2_PW_ab"), str ("Z"))] (str ("12_PW_ab")) = none ∧
    (decodeLine [(str ("2_PW_ab"), str ("Z"))] false
        (str ("12_PW_ab 2_PW_ab"))).line = str ("1Z Z") ∧
    ¬ str ("12_PW_ab") <:+:
      (decodeLine [(str ("2_PW_ab"), str ("Z"))] false
        (str ("12_PW_ab 2_PW_ab"))).line := by
  decide

/-- Witness for the amended C5 on a line with the same missing token
twice: unchanged output, one diagnostic per occurrence. -/
theorem c5_miss_line_unchanged_witness :
    (∀ m ∈ findMatches (str ("9_PW_ff and 9_PW_ff")),
      lookupOriginalID [] m = none) ∧
    (decodeLine [] false (str ("9_PW_ff and 9_PW_ff"))).line =
      str ("9_PW_ff and 9_PW_ff") ∧
    (decodeLine [] false (str ("9_PW_ff and 9_PW_ff"))).warned =
      findMatches (str ("9_PW_ff and 9_PW_ff")) ∧
    (decodeMode [] false [str ("9_PW_ff and 9_PW_ff")]).length = 1 :=
  ⟨by decide,
   (c5_miss_line_unchanged.1 [] false _ (by decide)).1,
   (c5_miss_line_unchanged.1 [] false _ (by decide)).2,
   c5_miss_line_unchanged.2 [] false _⟩

theorem replLoop_single_key (store : Store) (tok v : Str)
    (hlook : lookupOriginalID store tok = some v) :
    ∀ (ms : List Str) (queried warn : List Str), (∀ m ∈ ms, m = tok) →
    (replLoop store false ms [(tok, v)] queried warn).1 = [(tok, v)] := by
  intro ms
  induction ms with
  | nil => intro queried warn _; simp [replLoop]
  | cons m ms ih =>
    intro queried warn h
    have hm : m = tok := h m (List.mem_cons_self m ms)
    subst hm
    unfold replLoop
    rw [hlook]
    have hassign : mapAssign [(m, v)] m v = [(m, v)] := by
      simp [mapAssign]
    simp only [Bool.false_eq_true, if_false, hassign]
    exact ih _ _ (fun x hx => h x (List.mem_cons_of_mem m hx))

/-- C6 (amended).  When every match of a line is the same token string
and the token resolves, all occurrences receive the same replacement
value — the output is the single-pass replacement of every occurrence of
the token by the one looked-up value — but the store lookup is performed
once per occurrence: the queried keys are exactly the match occurrences
(duplicates are looked up again, not memoized). -/
theorem c6_duplicate_tokens (store : Store) (line tok v : Str)
    (hne : findMatches line ≠ [])
    (hall : ∀ m ∈ findMatches line, m = tok)
    (hlook : lookupOriginalID store tok = some v) :
    (decodeLine store false line).line = replaceAll line tok v ∧
    (decodeLine store false line).queried = findMatches line := by
  constructor
  · obtain ⟨m, ms, hms⟩ := List.exists_cons_of_ne_nil hne
    have hm : m = tok := hall m (by rw [hms]; exact List.mem_cons_self m ms)
    have hms' : ∀ x ∈ ms, x = tok := fun x hx =>
      hall x (by rw [hms]; exact List.mem_cons_of_mem m hx)
    have h1 : (replLoop store false (findMatches line) [] [] []).1 = [(tok, v)] := by
      rw [hms, hm]
      unfold replLoop
      rw [hlook]
      have hassign : mapAssign [] tok v = [(tok, v)] := by
        simp [mapAssign]
      simp only [Bool.false_eq_true, if_false, hassign]
      exact replLoop_single_key store tok v hlook ms _ _ hms'
    simp [decodeLine, h1]
  · simp [decodeLine, replLoop_queried]

/-- Counterexample to the memoization clause of C6: with `1_PW_a` stored
and the line `1_PW_a x 1_PW_a`, the token occurs twice and the store is
queried twice — once per occurrence, not once per line. -/
theorem c6_counterexample :
    findMatches (str ("1_PW_a x 1_PW_a")) = [str ("1_PW_a"), str ("1_PW_a")] ∧
    (decodeLine [(str ("1_PW_a"), str ("H"))] false
        (str ("1_PW_a x 1_PW_a"))).queried.length = 2 := by
  decide

/-- Witness for the amended C6: both occurrences of `1_PW_a` are
replaced by the same value `H`, and both occurrences were looked up. -/
theorem c6_duplicate_tokens_witness :
    (decodeLine [(str ("1_PW_a"), str ("H"))] false
        (str ("1_PW_a x 1_PW_a"))).line =
      replaceAll (str ("1_PW_a x 1_PW_a")) (str ("1_PW_a")) (str ("H")) ∧
    replaceAll (str ("1_PW_a x 1_PW_a")) (str ("1_PW_a")) (str ("H")) =
      str ("H x H") ∧
    (decodeLine [(str ("1_PW_a"), str ("H"))] false
        (str ("1_PW_a x 1_PW_a"))).queried =
      findMatches (str ("1_PW_a x 1_PW_a")) :=
  ⟨(c6_duplicate_tokens [(str ("1_PW_a"), str ("H"))] (str ("1_PW_a x 1_PW_a"))
      (str ("1_PW_a")) (str ("H")) (by decide) (by decide) (by decide)).1,
   by decide,
   (c6_duplicate_tokens [(str ("1_PW_a"), str ("H"))] (str ("1_PW_a x 1_PW_a"))
      (str ("1_PW_a")) (str ("H")) (by decide) (by decide) (by decide)).2⟩

/-- C7.  CSV quoting at substitution time: for a resolved token, CSV-safe
decode substitutes the stored value with internal double quotes doubled
and the whole value wrapped in one pair of double quotes (`csvQuote`),
while non-CSV decode substitutes the stored value unchanged. -/
theorem c7_csv_quoting (store : Store) (line tok v : Str)
    (hm : findMatches line = [tok])
    (hlook : lookupOriginalID store tok = some v) :
    (decodeLine store true line).line = replaceAll line tok (csvQuote v) ∧
    (decodeLine store false line).line = replaceAll line tok v := by
  constructor <;> simp [decodeLine, hm, replLoop, hlook, mapAssign]

/-- Witness for C7 on the spec's example: stored header `He said "hi"`
is substituted as `"He said ""hi"""` in CSV mode and unchanged
otherwise. -/
theorem c7_csv_quoting_witness :
    (decodeLine [(str ("1_PW_a"), str ("He said \"hi\""))] true
        (str ("1_PW_a"))).line =
      replaceAll (str ("1_PW_a")) (str ("1_PW_a"))
        (csvQuote (str ("He said \"hi\""))) ∧
    csvQuote (str ("He said \"hi\"")) = str ("\"He said \"\"hi\"\"\"") ∧
    (decodeLine [(str ("1_PW_a"), str ("He said \"hi\""))] false
        (str ("1_PW_a"))).line = str ("He said \"hi\"") :=
  ⟨(c7_csv_quoting [(str ("1_PW_a"), str ("He said \"hi\""))] (str ("1_PW_a"))
      (str ("1_PW_a")) (str ("He said \"hi\"")) (by decide) (by decide)).1,
   by decide,
   ((c7_csv_quoting [(str ("1_PW_a"), str ("He said \"hi\""))] (str ("1_PW_a"))
      (str ("1_PW_a")) (str ("He said \"hi\"")) (by decide) (by decide)).2).trans
     (by decide)⟩

/-! ## The concurrent decode collection loop

Embedded from the concurrent `decodeMode` of `src/sanitiser.go` (the
`___` variant, lines 384-452): a dispatcher numbers lines from 0, workers
emit `(lineNum, rewrittenLine)` results in some completion order, and the
main loop reassembles.  The embedding models the result-collection loop:
its input is the list of results in arrival order on the results channel
(an interleaving of worker completions), its state is `resultCache`,
`nextLineToWrite`, `jobsProcessed` and `totalJobs`, and it stops at the
source's `break` condition `jobsProcessed == totalJobs`.  If the arrival
list is exhausted without the break firing, the Go loop would block on
the channel; the model returns the output accumulated so far. -/

/-- Go map assignment `resultCache[res.lineNum] = res.line`. -/
def upsertCache (cache : List (Nat × Str)) (k : Nat) (v : Str) : List (Nat × Str) :=
  if cache.any (fun p => p.1 == k) then
    cache.map (fun p => if p.1 == k then (k, v) else p)
  else
    cache ++ [(k, v)]

/-- Go map read `resultCache[nextLineToWrite]` with its ok flag. -/
def lookupCache (cache : List (Nat × Str)) (k : Nat) : Option Str :=
  (cache.find? (fun p => p.1 == k)).map (fun p => p.2)

/-- Go `delete(resultCache, nextLineToWrite)`. -/
def eraseCache (cache : List (Nat × Str)) (k : Nat) : List (Nat × Str) :=
  cache.filter (fun p => !(p.1 == k))

/-- The inner flush loop: write and delete consecutive cached lines
starting at `nextLineToWrite`.  Each success removes one cache entry, so
`cache.length + 1` fuel is exact. -/
def drainLoop : Nat → List (Nat × Str) → Nat → List Str →
    List (Nat × Str) × Nat × List Str
  | 0, cache, next, out => (cache, next, out)
  | fuel + 1, cache, next, out =>
    match lookupCache cache next with
    | some l => drainLoop fuel (eraseCache cache next) (next + 1) (out ++ [l])
    | none => (cache, next, out)

/-- The result-collection loop `for res := range results` of the
concurrent `decodeMode`: update `jobsProcessed` and the running maximum
`totalJobs`, cache the result, flush consecutive lines, and `break` when
`jobsProcessed == totalJobs`. -/
def collectResults :
    List (Nat × Str) → List (Nat × Str) → Nat → Nat → Nat → List Str → List Str
  | [], _, _, _, _, out => out
  | (ln, l) :: rest, cache, next, jp, tot, out =>
    let jp' := jp + 1
    let tot' := max tot (ln + 1)
    let cache' := upsertCache cache ln l
    let d := drainLoop (cache'.length + 1) cache' next out
    if jp' = tot' then d.2.2
    else collectResults rest d.1 d.2.1 jp' tot' d.2.2

/-- Reassembly of worker results arriving in the given order, from the
initial state of the collection loop. -/
def reassemble (arrivals : List (Nat × Str)) : List Str :=
  collectResults arrivals [] 0 0 0 []

/-! ## The guarded encode mode of `src/sanitiser/sanitiser.go`

Embedded from the `_PW_` variant of `encodeMode` in
`src/sanitiser/sanitiser.go` (lines 272-341): a scan for the first
significant line, the two fatal format checks, and the body loop — whose
skip condition tests `firstLine` instead of `line`
(`!strings.HasPrefix(firstLine, ";")`), exactly as in the source. -/

/-- Embedding of `unicode.IsSpace`, the character class trimmed by
`strings.TrimSpace`. -/
def isSpaceGo (c : Char) : Bool :=
  let n := c.toNat
  (9 ≤ n && n ≤ 13) || n == 32 || n == 133 || n == 160 || n == 5760 ||
  (8192 ≤ n && n ≤ 8202) || n == 8232 || n == 8233 || n == 8239 ||
  n == 8287 || n == 12288

/-- Embedding of `strings.TrimSpace`. -/
def trimSpace (s : Str) : Str :=
  ((s.dropWhile isSpaceGo).reverse.dropWhile isSpaceGo).reverse

/-- Embedding of `strings.HasPrefix(line, "#")`. -/
def hasPrefixHash (s : Str) : Bool := ['#'].isPrefixOf s

/-- Embedding of `strings.HasPrefix(line, ";")`. -/
def hasPrefixSemi (s : Str) : Bool := [';'].isPrefixOf s

/-- The initial scan of `encodeMode`: keep reading (and trimming) lines
until one is neither blank nor a `#`/`;` comment; returns the last value
of `firstLine` and the unread remainder of the stream. -/
def findFirstLoop : List Str → Str → Str × List Str
  | [], firstLine => (firstLine, [])
  | l :: ls, _ =>
    let fl := trimSpace l
    if !(fl.isEmpty) && !(hasPrefixHash fl) && !(hasPrefixSemi fl) then (fl, ls)
    else findFirstLoop ls fl

/-- The body loop of the guarded `encodeMode`, faithful to the source:
each line is trimmed, then skipped when
`line == "" || strings.HasPrefix(line, "#") ||
!strings.HasPrefix(firstLine, ";")` — the third disjunct reads
`firstLine`, not `line`, as in the source. -/
def encodeLoop2 (t : Nat) (firstLine : Str) (currentHeader currentSequence : Str)
    (index : Nat) : List Str → List Str × Store
  | [] =>
    if currentHeader ≠ [] then
      let p := processSequence currentHeader currentSequence index t
      (p.1, [p.2])
    else ([], [])
  | l0 :: rest =>
    let line := trimSpace l0
    if line.isEmpty || hasPrefixHash line || !(hasPrefixSemi firstLine) then
      encodeLoop2 t firstLine currentHeader currentSequence index rest
    else if hasPrefixGT line then
      if currentHeader ≠ [] then
        let p := processSequence currentHeader currentSequence index t
        let r := encodeLoop2 t firstLine (line.drop 1) [] (index + 1) rest
        (p.1 ++ r.1, p.2 :: r.2)
      else
        encodeLoop2 t firstLine (line.drop 1) [] index rest
    else
      encodeLoop2 t firstLine currentHeader (currentSequence ++ line) index rest

/-- The guarded `encodeMode`: scan for the first significant line, fail
with the empty-input error or the invalid-FASTA error before any record
is emitted, otherwise run the body loop seeded with the first header.
The error messages paraphrase the source strings. -/
def encodeMode2 (input : List Str) (t : Nat) : Except Str (List Str × Store) :=
  let fr := findFirstLoop input []
  if fr.1.isEmpty then
    Except.error (str ("error reading input: empty file or only blank/comment lines"))
  else if !(hasPrefixGT fr.1) then
    Except.error (str ("input is not a valid FASTA file: first valid line does not start with >"))
  else
    Except.ok (encodeLoop2 t fr.1 (fr.1.drop 1) [] 0 fr.2)

/-- The first significant (non-blank, non-comment) line of the stream,
after trimming. -/
def firstSignificant (input : List Str) : Option Str :=
  (input.map trimSpace).find?
    (fun l => !(l.isEmpty) && !(hasPrefixHash l) && !(hasPrefixSemi l))

/-- Blank or comment line after trimming: the negation of the
significance test of the initial scan. -/
def notSig (l : Str) : Bool := l.isEmpty || hasPrefixHash l || hasPrefixSemi l

theorem findFirstLoop_some :
    ∀ (input : List Str) (acc sig : Str), firstSignificant input = some sig →
    (findFirstLoop input acc).1 = sig := by
  intro input
  induction input with
  | nil => intro acc sig h; simp [firstSignificant] at h
  | cons l ls ih =>
    intro acc sig h
    simp only [firstSignificant, List.map_cons, List.find?_cons] at h
    by_cases hp : (!(trimSpace l).isEmpty && !hasPrefixHash (trimSpace l) &&
        !hasPrefixSemi (trimSpace l)) = true
    · rw [hp] at h
      injection h with h2
      subst h2
      simp only [findFirstLoop]
      rw [if_pos hp]
    · rw [Bool.not_eq_true] at hp
      rw [hp] at h
      simp only [findFirstLoop]
      rw [if_neg (by rw [hp]; simp)]
      exact ih _ sig h

theorem findFirstLoop_none :
    ∀ (input : List Str) (acc : Str), firstSignificant input = none →
    notSig acc = true → notSig (findFirstLoop input acc).1 = true := by
  intro input
  induction input with
  | nil => intro acc _ hacc; exact hacc
  | cons l ls ih =>
    intro acc h hacc
    simp only [firstSignificant, List.map_cons, List.find?_cons] at h
    by_cases hp : (!(trimSpace l).isEmpty && !hasPrefixHash (trimSpace l) &&
        !hasPrefixSemi (trimSpace l)) = true
    · rw [hp] at h
      cases h
    · rw [Bool.not_eq_true] at hp
      rw [hp] at h
      have hns : notSig (trimSpace l) = true := by
        unfold notSig
        cases he : (trimSpace l).isEmpty <;>
          cases hh : hasPrefixHash (trimSpace l) <;>
          cases hs : hasPrefixSemi (trimSpace l) <;>
          simp_all
      simp only [findFirstLoop]
      rw [if_neg (by rw [hp]; simp)]
      exact ih _ h hns

theorem hash_not_gt {l : Str} (h : hasPrefixHash l = true) : hasPrefixGT l = false := by
  cases l with
  | nil => simp [hasPrefixHash, List.isPrefixOf] at h
  | cons c cs =>
    simp only [hasPrefixHash, List.isPrefixOf, List.isPrefixOf_nil_left,
      Bool.and_true] at h
    have hc : c = '#' := by
      have h2 : '#' = c := by simpa using h
      exact h2.symm
    subst hc
    simp [hasPrefixGT, List.isPrefixOf]

theorem semi_not_gt {l : Str} (h : hasPrefixSemi l = true) : hasPrefixGT l = false := by
  cases l with
  | nil => simp [hasPrefixSemi, List.isPrefixOf] at h
  | cons c cs =>
    simp only [hasPrefixSemi, List.isPrefixOf, List.isPrefixOf_nil_left,
      Bool.and_true] at h
    have hc : c = ';' := by
      have h2 : ';' = c := by simpa using h
      exact h2.symm
    subst hc
    simp [hasPrefixGT, List.isPrefixOf]

/-- C3.  If the stream has no significant line starting with `>` — either
its first significant (non-blank, non-comment) line starts with another
character, or it consists only of blank and comment lines — the guarded
encode fails with a format error; the error is returned before the body
loop runs, so no record is emitted and no output is produced. -/
theorem c3_invalid_first_line (input : List Str) (t : Nat)
    (h : ∀ sig, firstSignificant input = some sig → hasPrefixGT sig = false) :
    ∃ e, encodeMode2 input t = Except.error e := by
  cases hfs : firstSignificant input with
  | some sig =>
    have h1 : (findFirstLoop input []).1 = sig := findFirstLoop_some input [] sig hfs
    have hgt := h sig hfs
    have hp : (!sig.isEmpty && !hasPrefixHash sig && !hasPrefixSemi sig) = true := by
      have := List.find?_some (by simpa [firstSignificant] using hfs :
        (input.map trimSpace).find?
          (fun l => !(l.isEmpty) && !(hasPrefixHash l) && !(hasPrefixSemi l)) = some sig)
      simpa using this
    have hemp : sig.isEmpty = false := by
      cases he : sig.isEmpty <;> simp_all
    refine ⟨str ("input is not a valid FASTA file: first valid line does not start with >"), ?_⟩
    simp only [encodeMode2]
    rw [h1, hemp]
    simp [hgt]
  | none =>
    have h2 : notSig (findFirstLoop input []).1 = true :=
      findFirstLoop_none input [] hfs rfl
    unfold notSig at h2
    cases he : (findFirstLoop input []).1.isEmpty with
    | true =>
      refine ⟨str ("error reading input: empty file or only blank/comment lines"), ?_⟩
      simp only [encodeMode2]
      rw [he]
      simp
    | false =>
      rw [he] at h2
      simp only [Bool.false_or] at h2
      have hgt : hasPrefixGT (findFirstLoop input []).1 = false := by
        cases hh : hasPrefixHash (findFirstLoop input []).1 with
        | true => exact hash_not_gt hh
        | false =>
          rw [hh] at h2
          simp only [Bool.false_or] at h2
          exact semi_not_gt h2
      refine ⟨str ("input is not a valid FASTA file: first valid line does not start with >"), ?_⟩
      simp only [encodeMode2]
      rw [he]
      simp [hgt]

/-- Witness for C3: a stream whose first significant line is `ACGT`
fails, and a stream of only comment and blank lines fails. -/
theorem c3_invalid_first_line_witness :
    (∃ e, encodeMode2 [str ("ACGT")] 40 = Except.error e) ∧
    (∃ e, encodeMode2 [str ("# note"), str ("   ")] 40 = Except.error e) := by
  constructor
  · apply c3_invalid_first_line
    intro sig hsig
    have h1 : firstSignificant [str ("ACGT")] = some (str ("ACGT")) := by decide
    rw [h1] at hsig
    injection hsig with h2
    rw [← h2]
    decide
  · apply c3_invalid_first_line
    intro sig hsig
    have h1 : firstSignificant [str ("# note"), str ("   ")] = none := by decide
    rw [h1] at hsig
    cases hsig

/-- C4 (code bug).  On the input `>h`, `#c`, `ACGT` the body loop of the
guarded encode skips every line after the first — its skip condition
tests `firstLine` (which starts with `>`, so `!HasPrefix(firstLine, ";")`
is always true) instead of `line` — so the emitted record carries the
empty sequence, not `ACGT`: the output sequence line is empty and the
stored identifier hashes the empty string, which differs from the
identifier the claimed behaviour (skip `#c`, append `ACGT`) would
produce. -/
theorem c4_comment_skip_bug :
    encodeMode2 [str (">h"), str ("#c"), str ("ACGT")] 40 =
      Except.ok ([('>' :: newIDOf [] 0 40), []], [(newIDOf [] 0 40, str ("h"))]) ∧
    newIDOf [] 0 40 ≠ newIDOf (str ("ACGT")) 0 40 :=
  ⟨by rfl, by set_option maxRecDepth 4096 in decide⟩

/-- C2 (code bug).  The collection loop of the concurrent decode breaks
as soon as `jobsProcessed` equals the running maximum `totalJobs`: when
the results of a two-line input arrive in line order, the loop stops
after the first result and outputs one line instead of two, while the
reversed arrival order yields both lines — the output depends on worker
completion order and can lose lines. -/
theorem c2_reassembly_truncates :
    reassemble [(0, str ("alpha")), (1, str ("beta"))] = [str ("alpha")] ∧
    reassemble [(1, str ("beta")), (0, str ("alpha"))] =
      [str ("alpha"), str ("beta")] := by
  decide

end SanitiseFasta
